import Mathlib

/-!
Verification of the rad1 chess engine core (`src/rad1`, with the move-hash
module from `src/src/move_hash.rs`).

The development shallowly embeds:
  * `node.rs`           : `NodeValue<T>`
  * `tt.rs`             : the two-tier transposition table, at the level of
                          Zobrist keys (`u64` modelled as `Nat`) and 16-bit
                          move hashes (`u16` modelled as `Nat`, `0` = none);
                          the per-slot locks and the `RefCell` are concurrency
                          plumbing with no sequential content and are elided,
                          the `u8` thread count of the deep slot is kept as the
                          first component of a pair, untouched by every method,
                          exactly as in the source.
  * `move_hash.rs`      : the bijective 16-bit move encoding.
  * `agent/ab.rs`       : `cached_evaluation`, `update_cache`,
                          `check_extension`, `q_search`, `null_alpha_beta`,
                          `null_window_search`, `principal_variation_search`,
                          `alpha_beta`, plus the move ordering of
                          `Position::sorted_moves` / `sorted_captures`
                          (`lib.rs`).

The chess rules themselves (board representation, legal move generation,
Zobrist hashing, check detection, the static evaluator) live in the external
`chess` crate and the evaluator module and are out of scope of the claims;
they are abstracted into an `Oracle` of unconstrained functions over opaque
board and move identifiers (`Nat`).  Scores (`i16`) are modelled as `Int`:
no claim is about wrap-around arithmetic.  Recursion of the Rust search is
unbounded in the depth and capture structure of the oracle, so every
recursive search function takes an explicit fuel argument and recurses
structurally on it; each Rust recursive call consumes one unit of fuel.
-/

/-- `NodeValue<T>` from `node.rs`: `Principal` / `All` / `Cut` node values. -/
inductive NodeValue (α : Type) where
  | Principal (value : α)
  | All (value : α)
  | Cut (value : α)
deriving DecidableEq

instance (α : Type) [Inhabited α] : Inhabited (NodeValue α) :=
  ⟨NodeValue.Principal default⟩

/-- `NodeValue::pv_node`. -/
def NodeValue.pv_node {α : Type} (value : α) : NodeValue α := .Principal value

/-- `NodeValue::all_node`. -/
def NodeValue.all_node {α : Type} (value : α) : NodeValue α := .All value

/-- `NodeValue::cut_node`. -/
def NodeValue.cut_node {α : Type} (value : α) : NodeValue α := .Cut value

/-- `EvaluationHash<T>` from `tt.rs`.  `hash` is the position's Zobrist key
(`u64`), `best_move_hash` the 16-bit move hash with `0` meaning "no move". -/
structure EvaluationHash (α : Type) where
  hash : Nat
  depth : Nat
  value : NodeValue α
  best_move_hash : Nat
deriving DecidableEq

instance (α : Type) [Inhabited α] : Inhabited (EvaluationHash α) :=
  ⟨⟨0, 0, default, 0⟩⟩

/-- `TranspositionTable<T>` from `tt.rs`.  The two bucket vectors are modelled
as total functions from the bucket index; every access in the source is at
index `hash % cache_size`.  The deep bucket keeps the (dead) `u8` thread-count
component of `ThreadCountHash<T>` as the first component of a pair. -/
structure TranspositionTable (α : Type) where
  cache_size : Nat
  deep : Nat → Nat × EvaluationHash α
  shallow : Nat → EvaluationHash α

namespace TranspositionTable

/-- `TranspositionTable::new`: `size = cache_size / 2`; every shallow slot is
`EvaluationHash::default()` (key 0, depth 0, `Principal(default)`, move 0) and
every deep slot is `(0, {hash: 0, depth: 255, value: default, best_move_hash: 0})`. -/
def new (α : Type) [Inhabited α] (cache_size : Nat) : TranspositionTable α :=
  { cache_size := cache_size / 2
    deep := fun _ => (0, ⟨0, 255, default, 0⟩)
    shallow := fun _ => default }

/-- `TranspositionTable::best_move`, at the level of move hashes: the source
returns `move_hash::get_move` of the stored 16-bit hash; we return the stored
hash itself (the encoding is proved bijective below).  Shallow bucket first,
then deep, requiring a matching key and a non-zero move hash. -/
def bestMoveHash {α : Type} (tt : TranspositionTable α) (hash : Nat) :
    Option Nat :=
  let s := tt.shallow (hash % tt.cache_size)
  if s.hash = hash ∧ s.best_move_hash ≠ 0 then some s.best_move_hash
  else
    let d := (tt.deep (hash % tt.cache_size)).2
    if d.hash = hash ∧ d.best_move_hash ≠ 0 then some d.best_move_hash
    else none

/-- `TranspositionTable::get_evaluation_and_depth`: deep bucket first, then
shallow, requiring a matching key and a non-zero move hash. -/
def getEvaluationAndDepth {α : Type} (tt : TranspositionTable α)
    (hash : Nat) : Option (NodeValue α × Nat) :=
  let d := (tt.deep (hash % tt.cache_size)).2
  if d.hash = hash ∧ d.best_move_hash ≠ 0 then some (d.value, d.depth)
  else
    let s := tt.shallow (hash % tt.cache_size)
    if s.hash = hash ∧ s.best_move_hash ≠ 0 then some (s.value, s.depth)
    else none

/-- `TranspositionTable::update_evaluation_and_best_move`, at the level of
move hashes (`best_move` is `Some` of the 16-bit hash of the stored move).
Shallow slot overwrites when `stored.depth ≤ depth`, deep slot when
`stored.depth ≥ depth`; a `none` best move leaves the slot's prior
`best_move_hash` in place, and the deep slot's thread count is untouched. -/
def updateEvaluationAndBestMove {α : Type} (tt : TranspositionTable α)
    (hash : Nat) (depth : Nat) (node : NodeValue α) (best_move : Option Nat) :
    TranspositionTable α :=
  let idx := hash % tt.cache_size
  { cache_size := tt.cache_size
    shallow := fun i =>
      if i = idx then
        let v := tt.shallow idx
        if v.depth ≤ depth then
          { hash := hash, depth := depth, value := node
            best_move_hash :=
              match best_move with
              | some m => m
              | none => v.best_move_hash }
        else v
      else tt.shallow i
    deep := fun i =>
      if i = idx then
        let v := tt.deep idx
        if depth ≤ v.2.depth then
          (v.1,
            { hash := hash, depth := depth, value := node
              best_move_hash :=
                match best_move with
                | some m => m
                | none => v.2.best_move_hash })
        else v
      else tt.deep i }

end TranspositionTable

/-! ## Move hash (`src/src/move_hash.rs`) -/

/-- A promotion piece; `PROMOTION_PIECES` of the `chess` crate lists
queen, knight, rook, bishop in this order. -/
inductive Promo where
  | queen
  | knight
  | rook
  | bishop
deriving DecidableEq

/-- `PROMOTION_PIECES`. -/
def PROMOTION_PIECES : List Promo := [.queen, .knight, .rook, .bishop]

/-- A `ChessMove` as far as the move hash is concerned: source and
destination square indices (`Square::to_index`, range `0..64`) and an
optional promotion piece. -/
structure ChessMove where
  source : Nat
  dest : Nat
  promotion : Option Promo
deriving DecidableEq

instance : Inhabited ChessMove := ⟨⟨0, 0, none⟩⟩

/-- The block of five moves the `move_hash` table generation emits for one
(source, destination) pair: no promotion first, then the four promotion
pieces in `PROMOTION_PIECES` order. -/
def moveBlock (s d : Nat) : List ChessMove :=
  ⟨s, d, none⟩ :: PROMOTION_PIECES.map (fun p => ⟨s, d, some p⟩)

/-- `move_hash()`: the precomputed table, indexed by
`source * 64 * 5 + dest * 5 + promotion_index`, built by iterating sources
(outer), destinations (middle) and the promotion variants (inner). -/
def move_hash_table : List ChessMove :=
  (List.range 64).flatMap (fun s => (List.range 64).flatMap (fun d => moveBlock s d))

/-- The promotion index used by `get_hash`: `None ↦ 0` and the four entries
of `PROMOTION_PIECES` to `1..4` (the source compares against
`PROMOTION_PIECES[0..3]` in order). -/
def promoIndex : Option Promo → Nat
  | none => 0
  | some .queen => 1
  | some .knight => 2
  | some .rook => 3
  | some .bishop => 4

/-- `get_hash`. -/
def get_hash (m : ChessMove) : Nat :=
  m.source * 64 * 5 + m.dest * 5 + promoIndex m.promotion

/-- `get_move`: index into the precomputed table (the Rust array access
panics out of range; the default is irrelevant for indices below 20480). -/
def get_move (hash : Nat) : ChessMove :=
  move_hash_table.getD hash default

/-! ## The search (`src/rad1/src/agent/ab.rs` with the move ordering of
`src/rad1/src/lib.rs`) -/

/-- The external chess interface the search is written against: opaque board
and move identifiers with the operations of the `chess` crate and of the
evaluator that `ab.rs` consumes.  `moveScore` stands for `capture_score`
(`lib.rs`), whose internals are board queries of the external crate; only the
fact that the move lists are sorted by it matters to the search. -/
structure Oracle where
  eval : Nat → Int
  ongoing : Nat → Bool
  inCheck : Nat → Bool
  nullMove : Nat → Option Nat
  childPos : Nat → Nat → Nat
  legalMoves : Nat → List Nat
  captures : Nat → List Nat
  moveScore : Nat → Nat → Int
  hash : Nat → Nat

/-- `Position::sorted_moves` (`lib.rs`): push the hint first when it is legal
(`Board::legal` coincides with membership in `MoveGen::new_legal`), then
append a freshly generated full legal move list sorted by `compare_moves`.
The hint is removed only from a move generator that is then discarded, so a
legal hint occurs again in the appended list. -/
def sortedMoves (o : Oracle) (b : Nat) (best_move : Option Nat) : List Nat :=
  (match best_move with
   | some m => if m ∈ o.legalMoves b then [m] else []
   | none => []) ++
  List.insertionSort (fun a c => o.moveScore b a ≤ o.moveScore b c)
    (o.legalMoves b)

/-- `Position::sorted_captures` (`lib.rs`): the capture set, sorted by
`compare_moves`. -/
def sortedCaptures (o : Oracle) (b : Nat) : List Nat :=
  List.insertionSort (fun a c => o.moveScore b a ≤ o.moveScore b c)
    (o.captures b)

/-- The capture loop of `q_search`, abstracted over the recursive call
`rec` (which is `q_search` at one less fuel): running `alpha` is raised to
every score below `beta`; a score at or above `beta` sets `alpha = beta` and
breaks. -/
def qLoop (o : Oracle) (rec : Nat → Int → Int → Int) (b : Nat) :
    List Nat → Int → Int → Int
  | [], alpha, _ => alpha
  | m :: ms, alpha, beta =>
    let score := - rec (o.childPos b m) (-beta) (-alpha)
    if beta ≤ score then beta
    else qLoop o rec b ms (max alpha score) beta

/-- `q_search`: stand pat on the static evaluation, else search the sorted
captures.  Fuel exhaustion returns `alpha` (the Rust recursion is bounded by
the finite capture structure of a real board). -/
def qSearch (o : Oracle) : Nat → Nat → Int → Int → Int
  | 0 => fun _ alpha _ => alpha
  | n + 1 => fun b alpha beta =>
    let evaluation := o.eval b
    if beta ≤ evaluation then beta
    else qLoop o (qSearch o n) b (sortedCaptures o b) (max alpha evaluation) beta

/-- The move loop of `null_alpha_beta`, abstracted over the recursive call. -/
def nullLoop (o : Oracle) (rec : Nat → Int → Int → Int) (b : Nat) :
    List Nat → Int → Int → Int
  | [], alpha, _ => alpha
  | m :: ms, alpha, beta =>
    let val := - rec (o.childPos b m) (-beta) (-alpha)
    if beta ≤ val then beta
    else nullLoop o rec b ms (max alpha val) beta

/-- `null_alpha_beta`: a plain negamax over `sorted_moves` with no hint, no
transposition table and no extensions, used for the null-move heuristic. -/
def nullAlphaBeta (o : Oracle) : Nat → Nat → Nat → Int → Int → Int
  | 0 => fun _ _ alpha _ => alpha
  | n + 1 => fun b depth alpha beta =>
    if depth = 0 then o.eval b
    else nullLoop o (fun c => nullAlphaBeta o n c (depth - 1)) b
      (sortedMoves o b none) alpha beta

/-- `cached_evaluation`: probe the table; on an entry of sufficient depth a
`Principal` value is returned, an `All` value raises `alpha`, a `Cut` value
lowers `beta`.  Returns the final `(alpha, beta)` pair of the two `&mut`
parameters together with the optional early return value. -/
def cachedEvaluation (tt : TranspositionTable Int) (hash : Nat) (depth : Nat)
    (alpha beta : Int) : Int × Int × Option Int :=
  match tt.getEvaluationAndDepth hash with
  | none => (alpha, beta, none)
  | some (cached_eval, evaluation_depth) =>
    if depth ≤ evaluation_depth then
      match cached_eval with
      | .Principal value => (alpha, beta, some value)
      | .All value => (max alpha value, beta, none)
      | .Cut value => (alpha, min beta value, none)
    else (alpha, beta, none)

/-- `update_cache`: classify the value against `(alpha, beta)` and store it
with the best move's hash. -/
def updateCache (tt : TranspositionTable Int) (hash : Nat) (depth : Nat)
    (alpha beta value : Int) (best_move : Nat) : TranspositionTable Int :=
  let node : NodeValue Int :=
    if value ≤ alpha then .all_node value
    else if beta ≤ value then .cut_node value
    else .pv_node value
  tt.updateEvaluationAndBestMove hash depth node (some best_move)

/-- `check_extension`: when the extension is still enabled and the side to
move is in check, deepen by one and disable further extensions. -/
def checkExtension (o : Oracle) (b : Nat) (depth : Nat) (ext : Bool) :
    Nat × Bool :=
  if ext && o.inCheck b then (depth + 1, false) else (depth, ext)

/-- The result of `alpha_beta`.  `value` and `tt` are the score and the
table state after the call; `ok` and `nullTried` are ghost observations used
by the theorems: `ok` is false when some node of the call tree applied a
check extension although one had already been applied on its path (the
`applied` ghost argument counts those), and `nullTried` records whether this
call itself evaluated the null-move heuristic. -/
structure ABResult where
  value : Int
  tt : TranspositionTable Int
  ok : Bool
  nullTried : Bool

/-- The type of the recursive search callback (`alpha_beta` at one less
fuel): table, board, depth, alpha, beta, extension flag and the ghost
extension count. -/
abbrev SearchRec :=
  TranspositionTable Int → Nat → Nat → Int → Int → Bool → Nat → ABResult

/-- `null_window_search` for one child position, abstracted over the
recursive call: a null-window probe, re-searched with the full window when
the probe lands strictly inside `(alpha, beta)`.  Returns the value, the
table and the conjunction of the ghost `ok` flags. -/
def nullWindowSearch (_o : Oracle) (rec : SearchRec) (tt : TranspositionTable Int)
    (cb : Nat) (depth : Nat) (alpha beta : Int) (ext : Bool) (ap : Nat) :
    Int × TranspositionTable Int × Bool :=
  let r := rec tt cb (depth - 1) (-alpha - 1) (-alpha) ext ap
  let value := - r.value
  if alpha < value ∧ value < beta then
    let r2 := rec r.tt cb (depth - 1) (-beta) (-alpha) ext ap
    (- r2.value, r2.tt, r.ok && r2.ok)
  else (value, r.tt, r.ok)

/-- The result of `principal_variation_search`. -/
structure PVSResult where
  value : Int
  best : Nat
  tt : TranspositionTable Int
  ok : Bool

/-- The tail of the `principal_variation_search` loop over `moves[1..]`,
abstracted over the recursive call. -/
def pvsLoop (o : Oracle) (rec : SearchRec) (b : Nat) (depth : Nat) (beta : Int)
    (ext : Bool) (ap : Nat) :
    List Nat → TranspositionTable Int → Int → Nat → Bool → PVSResult
  | [], tt, alpha, best, okAcc => ⟨alpha, best, tt, okAcc⟩
  | m :: ms, tt, alpha, best, okAcc =>
    let r := nullWindowSearch o rec tt (o.childPos b m) depth alpha beta ext ap
    let alpha' := if alpha < r.1 then r.1 else alpha
    let best' := if alpha < r.1 then m else best
    if beta ≤ alpha' then ⟨alpha', best', r.2.1, okAcc && r.2.2⟩
    else pvsLoop o rec b depth beta ext ap ms r.2.1 alpha' best' (okAcc && r.2.2)

/-- `principal_variation_search`: expand via the table's best-move hint
(move identifiers are their 16-bit hashes, the encoding being bijective),
search the first move with the full window, then the rest with null windows.
The Rust indexes `moves[0]` and would panic on an empty list (ongoing
positions always have legal moves); the empty case here returns `alpha`
with a zero move. -/
def pvSearch (o : Oracle) (rec : SearchRec) (tt : TranspositionTable Int)
    (b : Nat) (depth : Nat) (alpha beta : Int) (ext : Bool) (ap : Nat) :
    PVSResult :=
  match sortedMoves o b (tt.bestMoveHash (o.hash b)) with
  | [] => ⟨alpha, 0, tt, true⟩
  | m0 :: rest =>
    let r0 := rec tt (o.childPos b m0) (depth - 1) (-beta) (-alpha) ext ap
    let value := - r0.value
    let alpha' := if alpha < value then value else alpha
    if beta ≤ alpha' then ⟨alpha', m0, r0.tt, r0.ok⟩
    else pvsLoop o rec b depth beta ext ap rest r0.tt alpha' m0 r0.ok

/-- `alpha_beta`.  Step order as in the source: check extension, capture of
`alpha_orig` (before the probe), transposition-table probe, terminal test,
horizon (`q_search` plus a depth-0 `Principal` store with no move), null-move
pruning at `depth ≥ 3`, principal variation search, store via
`update_cache` with the pre-probe `alpha_orig` and the post-probe `beta`.
`applied` is the ghost count of check extensions applied on the path so far;
`ok` and `nullTried` are the ghost observations described at `ABResult`. -/
def alphaBeta (o : Oracle) : Nat → SearchRec
  | 0 => fun tt _ _ alpha _ _ _ => ⟨alpha, tt, true, false⟩
  | n + 1 => fun tt b depth alpha beta ext applied =>
    let didExt := ext && o.inCheck b
    let okHere := !(didExt && decide (0 < applied))
    let applied' := if didExt then applied + 1 else applied
    let depth' := (checkExtension o b depth ext).1
    let ext' := (checkExtension o b depth ext).2
    let alpha_orig := alpha
    let probe := cachedEvaluation tt (o.hash b) depth' alpha beta
    let alpha' := probe.1
    let beta' := probe.2.1
    match probe.2.2 with
    | some value => ⟨value, tt, okHere, false⟩
    | none =>
      if o.ongoing b then
        if depth' = 0 then
          let value := qSearch o n b alpha' beta'
          ⟨value,
            tt.updateEvaluationAndBestMove (o.hash b) 0 (.pv_node value) none,
            okHere, false⟩
        else
          let nullScore : Option Int :=
            if 3 ≤ depth' then
              (o.nullMove b).map fun nb =>
                - nullAlphaBeta o n nb (depth' - 3) (-beta') (-beta' + 1)
            else none
          if nullScore.any fun s => decide (beta' ≤ s) then
            ⟨beta', tt, okHere, nullScore.isSome⟩
          else
            let r := pvSearch o (alphaBeta o n) tt b depth' alpha' beta' ext' applied'
            ⟨r.value,
              updateCache r.tt (o.hash b) depth' alpha_orig beta' r.value r.best,
              okHere && r.ok, nullScore.isSome⟩
      else ⟨o.eval b, tt, okHere, false⟩

/-! ## Move-hash lemmas -/

/-- Decode a promotion index in `0..4` back to the optional promotion piece
(the inverse of `promoIndex`). -/
def promoOf : Nat → Option Promo
  | 0 => none
  | 1 => some .queen
  | 2 => some .knight
  | 3 => some .rook
  | _ => some .bishop

lemma promoIndex_promoOf (p : Nat) (h : p < 5) : promoIndex (promoOf p) = p := by
  interval_cases p <;> rfl

lemma promoOf_promoIndex (x : Option Promo) : promoOf (promoIndex x) = x := by
  cases x with
  | none => rfl
  | some p => cases p <;> rfl

lemma getD_range (n i d : Nat) (h : i < n) : (List.range n).getD i d = i := by
  rw [List.getD_eq_getElem _ _ (by simpa using h)]
  simp

/-- Indexing a `flatMap` whose blocks all have length `k`. -/
lemma getD_flatMap_const {α β : Type} (f : α → List β) (k : Nat)
    (hk : ∀ a, (f a).length = k) (d : β) (da : α) :
    ∀ (L : List α) (i j : Nat), j < k → i < L.length →
      (L.flatMap f).getD (i * k + j) d = (f (L.getD i da)).getD j d := by
  intro L
  induction L with
  | nil => intro i j _ hi; simp at hi
  | cons a L ih =>
    intro i j hj hi
    cases i with
    | zero =>
      rw [List.flatMap_cons, Nat.zero_mul, Nat.zero_add,
        List.getD_append _ _ _ _ (by rw [hk]; exact hj)]
      rfl
    | succ i =>
      rw [List.flatMap_cons,
        List.getD_append_right _ _ _ _ (by rw [hk]; nlinarith)]
      have harith : (i + 1) * k + j - (f a).length = i * k + j := by
        rw [hk]; ring_nf; omega
      rw [harith, List.getD_cons_succ]
      exact ih i j hj (by simpa using hi)

lemma moveBlock_length (s d : Nat) : (moveBlock s d).length = 5 := rfl

lemma row_length (s : Nat) :
    ((List.range 64).flatMap (fun d => moveBlock s d)).length = 320 := by
  rw [List.length_flatMap]
  simp [Function.comp_def, moveBlock_length]

lemma moveBlock_getD (s d p : Nat) (hp : p < 5) :
    (moveBlock s d).getD p default = ⟨s, d, promoOf p⟩ := by
  interval_cases p <;> rfl

/-- The `i`-th entry of the precomputed move table, arithmetically. -/
lemma move_hash_table_getD (i : Nat) (hi : i < 20480) :
    move_hash_table.getD i default = ⟨i / 320, i % 320 / 5, promoOf (i % 5)⟩ := by
  unfold move_hash_table
  conv_lhs => rw [show i = i / 320 * 320 + i % 320 by omega]
  rw [getD_flatMap_const _ 320 row_length default 0 _ _ _
    (Nat.mod_lt _ (by norm_num)) (by simp; omega)]
  rw [getD_range 64 (i / 320) 0 (by omega)]
  conv_lhs =>
    rw [show i % 320 = i % 320 / 5 * 5 + i % 5 by
      rw [← Nat.mod_mod_of_dvd i (by norm_num : (5 : Nat) ∣ 320)]
      omega]
  rw [getD_flatMap_const _ 5 (moveBlock_length _) default 0 _ _ _
    (Nat.mod_lt _ (by norm_num)) (by simp; omega)]
  rw [getD_range 64 (i % 320 / 5) 0 (by omega)]
  exact moveBlock_getD _ _ _ (Nat.mod_lt _ (by norm_num))

/-- C6: the move-hash encoding and decoding are mutual inverses: on every
index `i < 20480 = 64*64*5`, `get_hash (get_move i) = i`, and on every
(source, destination, optional promotion) triple — squares index `0..63`,
promotion `None` encoded as `0` and the four promotion pieces as `1..4` —
`get_move (get_hash m) = m`. -/
theorem move_hash_round_trip :
    (∀ i : Nat, i < 20480 → get_hash (get_move i) = i) ∧
    (∀ m : ChessMove, m.source < 64 → m.dest < 64 → get_move (get_hash m) = m) := by
  constructor
  · intro i hi
    rw [get_move, move_hash_table_getD i hi, get_hash]
    simp only [promoIndex_promoOf (i % 5) (Nat.mod_lt _ (by norm_num))]
    omega
  · intro m hs hd
    obtain ⟨s, d, pr⟩ := m
    simp only at hs hd
    have hp : promoIndex pr < 5 := by
      cases pr with
      | none => norm_num [promoIndex]
      | some p => cases p <;> norm_num [promoIndex]
    rw [get_hash, get_move]
    unfold move_hash_table
    rw [show (⟨s, d, pr⟩ : ChessMove).source * 64 * 5 + (⟨s, d, pr⟩ : ChessMove).dest * 5
          + promoIndex (⟨s, d, pr⟩ : ChessMove).promotion
        = s * 320 + (d * 5 + promoIndex pr) by simp; ring]
    rw [getD_flatMap_const _ 320 row_length default 0 _ _ _ (by omega) (by simpa using hs)]
    rw [getD_range 64 s 0 hs]
    rw [getD_flatMap_const _ 5 (moveBlock_length _) default 0 _ _ _ hp (by simpa using hd)]
    rw [getD_range 64 d 0 hd]
    rw [moveBlock_getD s d _ hp, promoOf_promoIndex]

/-- Witness for C6 at a concrete index and a concrete move
(`e2e4` is source 12, destination 28; `a7a8=Q` is source 48, destination 56). -/
theorem move_hash_round_trip_witness :
    get_hash (get_move 777) = 777 ∧
    get_move (get_hash ⟨48, 56, some .queen⟩) = ⟨48, 56, some .queen⟩ :=
  ⟨move_hash_round_trip.1 777 (by norm_num),
   move_hash_round_trip.2 ⟨48, 56, some .queen⟩ (by norm_num) (by norm_num)⟩

/-! ## Claim-side definitions and concrete instances -/

/-- Modelled from the spec's words (§4.6 step 2, the claim C1 reading of the
probe): a `Cut` (`LowerBound`) entry raises `alpha` to `max(alpha, value)`,
an `All` (`UpperBound`) entry lowers `beta` to `min(beta, value)`, a
`Principal` (`Exact`) entry returns the value, and when the updated window
closes (`alpha ≥ beta`) the stored value is returned immediately.  This is
what the claim says `cached_evaluation` does; it is compared below with the
embedding of the source. -/
def claimC1Probe (tt : TranspositionTable Int) (hash : Nat) (depth : Nat)
    (alpha beta : Int) : Int × Int × Option Int :=
  match tt.getEvaluationAndDepth hash with
  | none => (alpha, beta, none)
  | some (cached_eval, evaluation_depth) =>
    if depth ≤ evaluation_depth then
      match cached_eval with
      | .Principal value => (alpha, beta, some value)
      | .Cut value =>
        let alpha' := max alpha value
        if beta ≤ alpha' then (alpha', beta, some value) else (alpha', beta, none)
      | .All value =>
        let beta' := min beta value
        if beta' ≤ alpha then (alpha, beta', some value) else (alpha, beta', none)
    else (alpha, beta, none)

/-- One call to `update_evaluation_and_best_move`, as data. -/
structure TTUpdate where
  key : Nat
  depth : Nat
  node : NodeValue Int
  mv : Option Nat

/-- Replay a sequence of `update_evaluation_and_best_move` calls. -/
def applyUpdates (tt : TranspositionTable Int) (l : List TTUpdate) :
    TranspositionTable Int :=
  l.foldl (fun t u => t.updateEvaluationAndBestMove u.key u.depth u.node u.mv) tt

/-- The scores the `q_search` capture loop actually computes, in order: each
score is taken with the running window, and the list stops at (and includes)
the first score at or above `beta`, where the loop breaks. -/
def qScores (o : Oracle) (rec : Nat → Int → Int → Int) (b : Nat) :
    List Nat → Int → Int → List Int
  | [], _, _ => []
  | m :: ms, alpha, beta =>
    let score := - rec (o.childPos b m) (-beta) (-alpha)
    if beta ≤ score then [score]
    else score :: qScores o rec b ms (max alpha score) beta

/-- A table holding a `Cut 15` entry of depth 1 for key 1 (both buckets of a
fresh two-slot table are written by the store). -/
def ttC1 : TranspositionTable Int :=
  (TranspositionTable.new Int 2).updateEvaluationAndBestMove 1 1 (.Cut 15) (some 5)

/-- A table holding an `All 7` entry of depth 1 for key 1. -/
def ttC2 : TranspositionTable Int :=
  (TranspositionTable.new Int 2).updateEvaluationAndBestMove 1 1 (.All 7) (some 5)

/-- A two-board world for exercising the store classification: board 10
(key 1) has the single legal move 5 leading to board 11 (key 2), whose
static evaluation is −5. -/
def oC2 : Oracle where
  eval := fun b => if b = 11 then -5 else 0
  ongoing := fun b => b = 10 || b = 11
  inCheck := fun _ => false
  nullMove := fun _ => none
  childPos := fun _ _ => 11
  legalMoves := fun b => if b = 10 then [5] else []
  captures := fun _ => []
  moveScore := fun _ _ => 0
  hash := fun b => if b = 10 then 1 else if b = 11 then 2 else 0

/-- The store sequence of the `update_shallow_hash` test in `tt.rs`: store
`(key 1, depth 1, Principal 50, move 5)` then `(key 1, depth 8,
Principal 100, move 6)` on a fresh two-slot table. -/
def ttC5 : TranspositionTable Int :=
  ((TranspositionTable.new Int 2).updateEvaluationAndBestMove 1 1 (.pv_node 50)
    (some 5)).updateEvaluationAndBestMove 1 8 (.pv_node 100) (some 6)

/-- An update sequence in which the second store hits the same slot as the
first (keys 1 and 2, one-slot table) with no best move. -/
def updatesC3 : List TTUpdate :=
  [⟨1, 1, .pv_node 50, some 5⟩, ⟨2, 1, .pv_node 60, none⟩]

/-- A world with a null-move cutoff at board 20 (key 3): the null position 21
evaluates to −50, so the reduced null search at any nonempty window around
`beta = 10` fails high. -/
def oC7 : Oracle where
  eval := fun b => if b = 21 then -50 else 0
  ongoing := fun _ => true
  inCheck := fun _ => false
  nullMove := fun b => if b = 20 then some 21 else none
  childPos := fun _ _ => 0
  legalMoves := fun _ => []
  captures := fun _ => []
  moveScore := fun _ _ => 0
  hash := fun b => if b = 20 then 3 else 4

/-- A world with one capture: board 0 (stand pat 0) has capture 7 to board 8,
whose stand pat is −3 and which has no captures of its own. -/
def oC9 : Oracle where
  eval := fun b => if b = 8 then -3 else 0
  ongoing := fun _ => true
  inCheck := fun _ => false
  nullMove := fun _ => none
  childPos := fun _ _ => 8
  legalMoves := fun _ => []
  captures := fun b => if b = 0 then [7] else []
  moveScore := fun _ _ => 0
  hash := fun _ => 0

/-- A world for the move-ordering claims: board 0 has legal moves 4 and 5. -/
def oC10 : Oracle where
  eval := fun _ => 0
  ongoing := fun _ => true
  inCheck := fun _ => false
  nullMove := fun _ => none
  childPos := fun _ _ => 1
  legalMoves := fun b => if b = 0 then [4, 5] else []
  captures := fun _ => []
  moveScore := fun _ m => m
  hash := fun _ => 0

/-! ## Transposition-table lemmas -/

lemma shallow_update_eq (tt : TranspositionTable Int) (k d : Nat)
    (n : NodeValue Int) (mv : Option Nat) (i : Nat) :
    (tt.updateEvaluationAndBestMove k d n mv).shallow i =
      if i = k % tt.cache_size then
        (if (tt.shallow (k % tt.cache_size)).depth ≤ d then
          ⟨k, d, n, match mv with
            | some m => m
            | none => (tt.shallow (k % tt.cache_size)).best_move_hash⟩
        else tt.shallow (k % tt.cache_size))
      else tt.shallow i := rfl

lemma deep_update_eq (tt : TranspositionTable Int) (k d : Nat)
    (n : NodeValue Int) (mv : Option Nat) (i : Nat) :
    (tt.updateEvaluationAndBestMove k d n mv).deep i =
      if i = k % tt.cache_size then
        (if d ≤ (tt.deep (k % tt.cache_size)).2.depth then
          ((tt.deep (k % tt.cache_size)).1,
            ⟨k, d, n, match mv with
              | some m => m
              | none => (tt.deep (k % tt.cache_size)).2.best_move_hash⟩)
        else tt.deep (k % tt.cache_size))
      else tt.deep i := rfl

/-- A store changes a shallow slot's move hash only to the hash of the move
it was given. -/
lemma update_bmh_shallow (tt : TranspositionTable Int) (k d : Nat)
    (n : NodeValue Int) (mv : Option Nat) (i : Nat) :
    ((tt.updateEvaluationAndBestMove k d n mv).shallow i).best_move_hash
        = (tt.shallow i).best_move_hash ∨
      mv = some ((tt.updateEvaluationAndBestMove k d n mv).shallow i).best_move_hash := by
  rw [shallow_update_eq]
  split_ifs with hi hd
  · cases mv with
    | none => left; rw [hi]
    | some m => right; rfl
  · left; rw [hi]
  · left; rfl

/-- A store changes a deep slot's move hash only to the hash of the move it
was given. -/
lemma update_bmh_deep (tt : TranspositionTable Int) (k d : Nat)
    (n : NodeValue Int) (mv : Option Nat) (i : Nat) :
    ((tt.updateEvaluationAndBestMove k d n mv).deep i).2.best_move_hash
        = ((tt.deep i).2).best_move_hash ∨
      mv = some ((tt.updateEvaluationAndBestMove k d n mv).deep i).2.best_move_hash := by
  rw [deep_update_eq]
  split_ifs with hi hd
  · cases mv with
    | none => left; rw [hi]
    | some m => right; rfl
  · left; rw [hi]
  · left; rfl

lemma applyUpdates_cache_size (l : List TTUpdate) :
    ∀ tt : TranspositionTable Int, (applyUpdates tt l).cache_size = tt.cache_size := by
  induction l with
  | nil => intro tt; rfl
  | cons u l ih =>
    intro tt
    simp only [applyUpdates, List.foldl_cons] at ih ⊢
    rw [ih]
    rfl

/-- Every non-zero move hash in a replayed table either survived from the
start state or was supplied by some update of the sequence. -/
lemma applyUpdates_bmh (l : List TTUpdate) :
    ∀ (tt : TranspositionTable Int) (i : Nat),
    (((applyUpdates tt l).shallow i).best_move_hash = (tt.shallow i).best_move_hash ∨
      ∃ u ∈ l, u.mv = some (((applyUpdates tt l).shallow i).best_move_hash)) ∧
    (((applyUpdates tt l).deep i).2.best_move_hash = ((tt.deep i).2).best_move_hash ∨
      ∃ u ∈ l, u.mv = some (((applyUpdates tt l).deep i).2.best_move_hash)) := by
  induction l with
  | nil => intro tt i; simp [applyUpdates]
  | cons u l ih =>
    intro tt i
    have hl := ih (tt.updateEvaluationAndBestMove u.key u.depth u.node u.mv) i
    have hs := update_bmh_shallow tt u.key u.depth u.node u.mv i
    have hd := update_bmh_deep tt u.key u.depth u.node u.mv i
    simp only [applyUpdates, List.foldl_cons] at hl ⊢
    constructor
    · rcases hl.1 with h | ⟨w, hw, hmw⟩
      · rcases hs with h2 | h2
        · left; rw [h, h2]
        · right; exact ⟨u, by simp, by rw [h]; exact h2⟩
      · right; exact ⟨w, by simp [hw], hmw⟩
    · rcases hl.2 with h | ⟨w, hw, hmw⟩
      · rcases hd with h2 | h2
        · left; rw [h, h2]
        · right; exact ⟨u, by simp, by rw [h]; exact h2⟩
      · right; exact ⟨w, by simp [hw], hmw⟩

/-! ## Quiescence-search lemmas -/

lemma qLoop_le_beta (o : Oracle) (rec : Nat → Int → Int → Int) (b : Nat) :
    ∀ (ms : List Nat) (alpha beta : Int), alpha ≤ beta →
      qLoop o rec b ms alpha beta ≤ beta := by
  intro ms
  induction ms with
  | nil => intro alpha beta h; exact h
  | cons m ms ih =>
    intro alpha beta h
    simp only [qLoop]
    split
    · exact le_refl _
    · rename_i hs
      exact ih _ _ (by omega)

lemma qSearch_le_beta (o : Oracle) (n : Nat) (b : Nat) (alpha beta : Int)
    (h : alpha ≤ beta) : qSearch o n b alpha beta ≤ beta := by
  cases n with
  | zero => exact h
  | succ n =>
    simp only [qSearch]
    split
    · exact le_refl _
    · rename_i he
      exact qLoop_le_beta o _ b _ _ _ (by omega)

/-- The capture loop returns `beta` exactly when some searched score reaches
`beta`, and the running maximum of the searched scores otherwise. -/
lemma qLoop_eq_scores (o : Oracle) (rec : Nat → Int → Int → Int) (b : Nat) :
    ∀ (ms : List Nat) (alpha beta : Int),
      qLoop o rec b ms alpha beta =
        if (qScores o rec b ms alpha beta).any (fun s => decide (beta ≤ s)) then beta
        else (qScores o rec b ms alpha beta).foldl max alpha := by
  intro ms
  induction ms with
  | nil => intro alpha beta; simp [qLoop, qScores]
  | cons m ms ih =>
    intro alpha beta
    simp only [qLoop, qScores]
    split
    · rename_i hs
      simp [hs]
    · rename_i hs
      rw [ih]
      simp only [List.any_cons, List.foldl_cons]
      have : (decide (beta ≤ - rec (o.childPos b m) (-beta) (-alpha))) = false := by
        simpa using hs
      rw [this]
      simp

/-! ## Ghost-flag lemmas for the check-extension invariant -/

lemma nws_ok (o : Oracle) (rec : SearchRec) (tt : TranspositionTable Int)
    (cb : Nat) (depth : Nat) (alpha beta : Int) (ext : Bool) (ap : Nat)
    (hrec : ∀ tt cb dd alpha beta, (rec tt cb dd alpha beta ext ap).ok = true) :
    (nullWindowSearch o rec tt cb depth alpha beta ext ap).2.2 = true := by
  simp only [nullWindowSearch]
  split
  · simp [hrec]
  · simp [hrec]

lemma pvsLoop_ok (o : Oracle) (rec : SearchRec) (b : Nat) (depth : Nat)
    (beta : Int) (ext : Bool) (ap : Nat)
    (hrec : ∀ tt cb dd alpha beta, (rec tt cb dd alpha beta ext ap).ok = true) :
    ∀ (ms : List Nat) (tt : TranspositionTable Int) (alpha : Int) (best : Nat)
      (okAcc : Bool), okAcc = true →
      (pvsLoop o rec b depth beta ext ap ms tt alpha best okAcc).ok = true := by
  intro ms
  induction ms with
  | nil => intro tt alpha best okAcc hok; simpa [pvsLoop] using hok
  | cons m ms ih =>
    intro tt alpha best okAcc hok
    have hn := nws_ok o rec tt (o.childPos b m) depth alpha beta ext ap hrec
    simp only [pvsLoop]
    split <;> split <;>
      first
        | (exact ih _ _ _ _ (by simp [hok, hn]))
        | (simp [hok, hn])

lemma pvs_ok (o : Oracle) (rec : SearchRec) (tt : TranspositionTable Int)
    (b : Nat) (depth : Nat) (alpha beta : Int) (ext : Bool) (ap : Nat)
    (hrec : ∀ tt cb dd alpha beta, (rec tt cb dd alpha beta ext ap).ok = true) :
    (pvSearch o rec tt b depth alpha beta ext ap).ok = true := by
  simp only [pvSearch]
  split
  · rfl
  · split <;> split <;>
      first
        | (exact pvsLoop_ok o rec b depth beta ext ap hrec _ _ _ _ _ (by simp [hrec]))
        | (simp [hrec])

/-- When a search node starts with the extension flag implying a zero
path-extension count, no node of its call tree applies a second extension. -/
lemma alphaBeta_ok (o : Oracle) :
    ∀ (n : Nat) (tt : TranspositionTable Int) (b depth : Nat) (alpha beta : Int)
      (ext : Bool) (ap : Nat), (ext = true → ap = 0) →
      (alphaBeta o n tt b depth alpha beta ext ap).ok = true := by
  intro n
  induction n with
  | zero => intro tt b depth alpha beta ext ap _; rfl
  | succ n ih =>
    intro tt b depth alpha beta ext ap hinv
    have hok : (!((ext && o.inCheck b) && decide (0 < ap))) = true := by
      by_cases hext : ext = true
      · rw [hinv hext]; simp
      · simp only [Bool.not_eq_true] at hext
        simp [hext]
    have hchild : ∀ tt cb dd alpha beta,
        (alphaBeta o n tt cb dd alpha beta ((checkExtension o b depth ext).2)
          (if ext && o.inCheck b then ap + 1 else ap)).ok = true := by
      intro tt cb dd alpha beta
      apply ih
      intro hext'
      by_cases hdid : (ext && o.inCheck b) = true
      · exfalso
        rw [checkExtension] at hext'
        simp [hdid] at hext'
      · simp only [Bool.not_eq_true] at hdid
        rw [checkExtension] at hext'
        simp [hdid] at hext' ⊢
        exact hinv hext'
    have hp := pvs_ok o (alphaBeta o n) tt b ((checkExtension o b depth ext).1)
      ((cachedEvaluation tt (o.hash b) ((checkExtension o b depth ext).1) alpha beta).1)
      ((cachedEvaluation tt (o.hash b) ((checkExtension o b depth ext).1) alpha beta).2.1)
      ((checkExtension o b depth ext).2)
      (if ext && o.inCheck b then ap + 1 else ap) hchild
    simp only [alphaBeta]
    split
    · exact hok
    · split
      · split
        · exact hok
        · split <;> split <;> first | exact hok | simpa [hok] using hp
      · exact hok

/-! ## Claim theorems -/

/-- C1, counterexample: on a `Cut 15` entry of sufficient depth and window
`(0, 10)`, the source's probe lowers `beta` to 10 ⊓ 15 and keeps searching,
while the claim's probe (`LowerBound` raises `alpha`, early return once
`alpha ≥ beta`) would raise `alpha` to 15 and return the stored value; the two
probes disagree at this input. -/
theorem cached_evaluation_probe_differs_from_claim :
    cachedEvaluation ttC1 1 1 0 10 = (0, 10, none) ∧
    claimC1Probe ttC1 1 1 0 10 = (15, 10, some 15) ∧
    cachedEvaluation ttC1 1 1 0 10 ≠ claimC1Probe ttC1 1 1 0 10 := by
  refine ⟨by decide, by decide, by decide⟩

/-- C1, amended: on a TT hit of sufficient depth, `cached_evaluation`
returns a `Principal` value immediately, raises `alpha` on an `All`
(upper-bound) entry, and lowers `beta` on a `Cut` (lower-bound) entry — the
opposite pairing from the claim — and it never returns early from a closed
window: only `Principal` entries produce an early return. -/
theorem cached_evaluation_window_updates (tt : TranspositionTable Int)
    (h depth : Nat) (alpha beta : Int) (nv : NodeValue Int) (ed : Nat)
    (hfound : tt.getEvaluationAndDepth h = some (nv, ed)) (hdeep : depth ≤ ed) :
    (∀ v, nv = .Principal v → cachedEvaluation tt h depth alpha beta = (alpha, beta, some v)) ∧
    (∀ v, nv = .All v → cachedEvaluation tt h depth alpha beta = (max alpha v, beta, none)) ∧
    (∀ v, nv = .Cut v → cachedEvaluation tt h depth alpha beta = (alpha, min beta v, none)) := by
  refine ⟨?_, ?_, ?_⟩ <;> intro v hv <;> subst hv <;>
    simp only [cachedEvaluation, hfound] <;> rw [if_pos hdeep]

/-- Witness for C1's amended theorem at the `Cut 15` table. -/
theorem cached_evaluation_window_updates_witness :
    cachedEvaluation ttC1 1 1 0 10 = (0, 10, none) := by
  have h := (cached_evaluation_window_updates ttC1 1 1 0 10 (.Cut 15) 1
    (by decide) (by decide)).2.2 15 rfl
  exact h.trans (by decide)

/-- C2, counterexample: calling `alpha_beta` on board 10 (key 1, depth 1,
window `(0, 10)`) with an `All 7` entry cached for key 1 tightens the
post-probe `alpha` to 7, and the search then settles at value 7; the claim's
classification (`value ≤ post-probe α_orig = 7` means `All`) would store an
`All` node, but the code stores `Principal 7`: `alpha_orig` was the pre-probe
0. -/
theorem alpha_orig_not_post_probe_cex :
    cachedEvaluation ttC2 1 1 0 10 = (7, 10, none) ∧
    ((alphaBeta oC2 3 ttC2 10 1 0 10 false 0).tt.shallow 0).value = .Principal 7 ∧
    NodeValue.Principal (7 : Int) ≠ .All 7 := by
  refine ⟨by decide, by decide, by decide⟩

/-- C2, amended: the `alpha_orig` that `update_cache` classifies against is
the `alpha` argument `alpha_beta` was called with, captured before the TT
probe; the `beta` passed to the store is the post-probe one.  Under the
hypotheses the call reaches the store (probe miss, game ongoing, nonzero
depth, no null-move cutoff), and the stored table is `update_cache` of the
pre-probe `alpha` — not the post-probe `alpha'`. -/
theorem update_cache_uses_preprobe_alpha (o : Oracle) (n : Nat)
    (tt : TranspositionTable Int) (b depth : Nat) (alpha beta : Int)
    (ext : Bool) (ap : Nat) (d' : Nat) (ext' : Bool) (alpha' beta' : Int)
    (hckd : (checkExtension o b depth ext).1 = d')
    (hcke : (checkExtension o b depth ext).2 = ext')
    (hpa : (cachedEvaluation tt (o.hash b) d' alpha beta).1 = alpha')
    (hpb : (cachedEvaluation tt (o.hash b) d' alpha beta).2.1 = beta')
    (hph : (cachedEvaluation tt (o.hash b) d' alpha beta).2.2 = none)
    (hong : o.ongoing b = true)
    (hd : d' ≠ 0)
    (hnull : ((if 3 ≤ d' then (o.nullMove b).map (fun nb =>
        - nullAlphaBeta o n nb (d' - 3) (-beta') (-beta' + 1)) else none).any
        (fun s => decide (beta' ≤ s))) = false) :
    (alphaBeta o (n + 1) tt b depth alpha beta ext ap).tt =
      updateCache
        (pvSearch o (alphaBeta o n) tt b d' alpha' beta' ext'
          (if ext && o.inCheck b then ap + 1 else ap)).tt
        (o.hash b) d' alpha beta'
        (pvSearch o (alphaBeta o n) tt b d' alpha' beta' ext'
          (if ext && o.inCheck b then ap + 1 else ap)).value
        (pvSearch o (alphaBeta o n) tt b d' alpha' beta' ext'
          (if ext && o.inCheck b then ap + 1 else ap)).best := by
  simp only [alphaBeta, hckd, hcke, hpa, hpb, hph]
  rw [if_pos hong, if_neg hd]
  simp only [hnull]
  rfl

/-- Witness for C2's amended theorem on the concrete `All 7` scenario. -/
theorem update_cache_uses_preprobe_alpha_witness :
    ((alphaBeta oC2 (2 + 1) ttC2 10 1 0 10 false 0).tt.shallow 0).value
      = NodeValue.Principal 7 := by
  have h := update_cache_uses_preprobe_alpha oC2 2 ttC2 10 1 0 10 false 0 1 false 7 10
    (by decide) (by decide) (by decide) (by decide) (by decide) (by decide)
    (by decide) (by decide)
  rw [h]
  decide

/-- C3, counterexample: storing `(key 1, move 5)` and then `(key 2, no
move)` into the same slot of a fresh one-slot table leaves the slot keyed 2
but still holding move 5, and `best_move` for key 2 returns move 5, which no
update ever stored for key 2.  The claimed reachable-state invariant fails. -/
theorem best_move_stale_key_cex :
    (applyUpdates (TranspositionTable.new Int 2) updatesC3).bestMoveHash 2 = some 5 ∧
    ¬ ∃ u ∈ updatesC3, u.key = 2 ∧ u.mv = some 5 := by
  constructor
  · decide
  · rintro ⟨u, hu, hk, hm⟩
    simp [updatesC3] at hu
    rcases hu with h | h <;> subst h <;> simp_all

/-- C3, amended: over every sequence of stores on a fresh table, a non-`None`
result of the best-move probe is the hash of a move supplied by some update
of the sequence — but not necessarily by an update for the probed key, since
a store with no best move re-keys the slot while preserving the prior move
hash. -/
theorem best_move_hash_was_stored (cs : Nat) (l : List TTUpdate) (key mh : Nat)
    (hfind : (applyUpdates (TranspositionTable.new Int cs) l).bestMoveHash key = some mh) :
    ∃ u ∈ l, u.mv = some mh := by
  have h := applyUpdates_bmh l (TranspositionTable.new Int cs)
    (key % (applyUpdates (TranspositionTable.new Int cs) l).cache_size)
  simp only [TranspositionTable.bestMoveHash] at hfind
  split at hfind
  · rename_i hcond
    injection hfind with hfind
    rcases h.1 with h0 | hex
    · exact absurd (h0 ▸ rfl) hcond.2
    · rw [← hfind]; exact hex
  · split at hfind
    · rename_i hcond
      injection hfind with hfind
      rcases h.2 with h0 | hex
      · exact absurd (h0 ▸ rfl) hcond.2
      · rw [← hfind]; exact hex
    · exact absurd hfind (by simp)

/-- Witness for C3's amended theorem on the two-store sequence. -/
theorem best_move_hash_was_stored_witness :
    ∃ u ∈ updatesC3, u.mv = some 5 :=
  best_move_hash_was_stored 2 updatesC3 2 5 (by decide)

/-- C4: on a fresh table, storing `(key, depth 1, node1, moveA)` and then
`(key, depth 8, node2, moveB)` leaves the deep bucket at the depth-1 entry
(the deep slot overwrites only when its stored depth is at least the new
depth), and `get_evaluation_and_depth` consults the deep bucket first, so the
probe returns `(node1, 1)`.  The hypotheses ask for a non-empty table and a
non-zero hash for `moveA` (every actual chess move hashes to a non-zero
16-bit value; only the degenerate a1a1 no-promotion encoding is 0). -/
theorem tt_depth_preferred_probe (cs key : Nat) (n1 n2 : NodeValue Int)
    (hA hB : Nat) (hsize : 0 < cs / 2) (hA0 : hA ≠ 0) :
    (((TranspositionTable.new Int cs).updateEvaluationAndBestMove key 1 n1
        (some hA)).updateEvaluationAndBestMove key 8 n2
        (some hB)).getEvaluationAndDepth key = some (n1, 1) := by
  simp [TranspositionTable.new, TranspositionTable.updateEvaluationAndBestMove,
    TranspositionTable.getEvaluationAndDepth, hA0]

/-- Witness for C4 with the move hashes of e2e4 and d2d4. -/
theorem tt_depth_preferred_probe_witness :
    (((TranspositionTable.new Int 2).updateEvaluationAndBestMove 1 1
        (.pv_node 50) (some 3980)).updateEvaluationAndBestMove 1 8
        (.pv_node 100) (some 3660)).getEvaluationAndDepth 1
      = some (.pv_node 50, 1) :=
  tt_depth_preferred_probe 2 1 (.pv_node 50) (.pv_node 100) 3980 3660
    (by decide) (by decide)

/-- C5, counterexample: after the `update_shallow_hash` store sequence the
shallow bucket holds move 6 and the deep bucket holds move 5, both keyed 1
with non-zero hashes, and `best_move` returns the shallow bucket's move 6 —
not the deep bucket's, so the probe does not check the deep bucket first. -/
theorem best_move_probe_shallow_first_cex :
    ttC5.bestMoveHash 1 = some 6 ∧
    (ttC5.deep (1 % ttC5.cache_size)).2 = ⟨1, 1, .Principal 50, 5⟩ ∧
    ttC5.shallow (1 % ttC5.cache_size) = ⟨1, 8, .Principal 100, 6⟩ ∧
    (5 : Nat) ≠ 6 := by
  refine ⟨by decide, by decide, by decide, by decide⟩

/-- C5, amended: `best_move` returns the stored move hash from whichever
bucket matches the key with a non-zero move hash, checking the SHALLOW bucket
first; the deep bucket is consulted only when the shallow one does not
match, so when both match the shallow bucket's move is returned. -/
theorem best_move_probe_shallow_first {α : Type} (tt : TranspositionTable α)
    (key : Nat) :
    ((tt.shallow (key % tt.cache_size)).hash = key →
      (tt.shallow (key % tt.cache_size)).best_move_hash ≠ 0 →
      tt.bestMoveHash key = some (tt.shallow (key % tt.cache_size)).best_move_hash) ∧
    (¬((tt.shallow (key % tt.cache_size)).hash = key ∧
        (tt.shallow (key % tt.cache_size)).best_move_hash ≠ 0) →
      (tt.deep (key % tt.cache_size)).2.hash = key →
      (tt.deep (key % tt.cache_size)).2.best_move_hash ≠ 0 →
      tt.bestMoveHash key = some (tt.deep (key % tt.cache_size)).2.best_move_hash) := by
  constructor
  · intro h1 h2
    unfold TranspositionTable.bestMoveHash
    rw [if_pos ⟨h1, h2⟩]
  · intro h1 h2 h3
    unfold TranspositionTable.bestMoveHash
    rw [if_neg h1, if_pos ⟨h2, h3⟩]

/-- Witness for C5's amended theorem on the test table. -/
theorem best_move_probe_shallow_first_witness :
    ttC5.bestMoveHash 1 = some 6 := by
  have h := (best_move_probe_shallow_first ttC5 1).1 (by decide) (by decide)
  exact h.trans (by decide)

/-- C7: in a call that reaches the null-move step (probe miss, game
ongoing), the null-move heuristic is evaluated exactly when the
post-extension depth is at least 3 and `null_move()` succeeds, and when the
reduced-depth `null_alpha_beta` score `s = −αβ_null(null, depth−3, −β, −β+1)`
(taken at the post-probe `beta`) reaches `beta`, the call returns `beta`
immediately with the transposition table unchanged.  `null_alpha_beta` is by
definition a plain negamax with no table, no extensions, and move ordering
with no hint. -/
theorem null_move_pruning_spec (o : Oracle) (n : Nat)
    (tt : TranspositionTable Int) (b depth : Nat) (alpha beta : Int)
    (ext : Bool) (ap : Nat) (d' : Nat) (ext' : Bool) (alpha' beta' : Int)
    (hckd : (checkExtension o b depth ext).1 = d')
    (hcke : (checkExtension o b depth ext).2 = ext')
    (hpa : (cachedEvaluation tt (o.hash b) d' alpha beta).1 = alpha')
    (hpb : (cachedEvaluation tt (o.hash b) d' alpha beta).2.1 = beta')
    (hph : (cachedEvaluation tt (o.hash b) d' alpha beta).2.2 = none)
    (hong : o.ongoing b = true) :
    ((alphaBeta o (n + 1) tt b depth alpha beta ext ap).nullTried =
      (decide (3 ≤ d') && (o.nullMove b).isSome)) ∧
    (∀ nb : Nat, o.nullMove b = some nb → 3 ≤ d' →
      beta' ≤ - nullAlphaBeta o n nb (d' - 3) (-beta') (-beta' + 1) →
      (alphaBeta o (n + 1) tt b depth alpha beta ext ap).value = beta' ∧
      (alphaBeta o (n + 1) tt b depth alpha beta ext ap).tt = tt ∧
      (alphaBeta o (n + 1) tt b depth alpha beta ext ap).nullTried = true) := by
  constructor
  · simp only [alphaBeta, hckd, hcke, hpa, hpb, hph]
    rw [if_pos hong]
    by_cases hd0 : d' = 0
    · simp [hd0]
    · rw [if_neg hd0]
      by_cases h3 : 3 ≤ d'
      · rw [if_pos h3]
        split <;> simp [h3]
      · rw [if_neg h3]
        split <;> simp [h3]
  · intro nb hnb h3 hs
    have hd0 : d' ≠ 0 := by omega
    refine ⟨?_, ?_, ?_⟩ <;>
      (simp only [alphaBeta, hckd, hcke, hpa, hpb, hph]
       rw [if_pos hong, if_neg hd0]
       simp [h3, hnb, hs])

/-- Witness for C7 on the concrete null-move cutoff world. -/
theorem null_move_pruning_spec_witness :
    (alphaBeta oC7 (1 + 1) (TranspositionTable.new Int 2) 20 3 0 10 false 0).value = 10 ∧
    (alphaBeta oC7 (1 + 1) (TranspositionTable.new Int 2) 20 3 0 10 false 0).nullTried = true := by
  have h := null_move_pruning_spec oC7 1 (TranspositionTable.new Int 2) 20 3 0 10
    false 0 3 false 0 10 (by decide) (by decide) (by decide) (by decide)
    (by decide) (by decide)
  have h2 := h.2 21 (by decide) (by decide) (by decide)
  exact ⟨h2.1, h2.2.2⟩

/-- C8: on every root-to-leaf path of a search started with the extension
flag true (and a zero ghost extension count), the check-extension depth
increment is applied at most once: the ghost `ok` monitor, which is false as
soon as any node of the call tree extends while an extension had already
been applied on its path, stays true for every fuel, table, board, depth and
window. -/
theorem check_extension_at_most_once (o : Oracle) (fuel : Nat)
    (tt : TranspositionTable Int) (b depth : Nat) (alpha beta : Int) :
    (alphaBeta o fuel tt b depth alpha beta true 0).ok = true :=
  alphaBeta_ok o fuel tt b depth alpha beta true 0 (fun _ => rfl)

/-- C9: with `alpha ≤ beta`, one step of `q_search` returns exactly `beta`
when the stand-pat evaluation reaches `beta` or when some searched capture
score (as recorded by `qScores`, with its running window) reaches `beta`,
and otherwise the maximum of the initial `alpha`, the stand-pat evaluation
and the searched capture scores; and for every fuel the result never exceeds
`beta` (fail-hard). -/
theorem q_search_fail_hard (o : Oracle) (n : Nat) (b : Nat) (alpha beta : Int)
    (h : alpha ≤ beta) :
    (qSearch o (n + 1) b alpha beta =
      (if beta ≤ o.eval b then beta
       else
         if (qScores o (qSearch o n) b (sortedCaptures o b)
              (max alpha (o.eval b)) beta).any (fun s => decide (beta ≤ s)) then beta
         else (qScores o (qSearch o n) b (sortedCaptures o b)
              (max alpha (o.eval b)) beta).foldl max (max alpha (o.eval b)))) ∧
    (∀ m : Nat, qSearch o m b alpha beta ≤ beta) := by
  constructor
  · simp only [qSearch]
    split
    · rfl
    · rw [qLoop_eq_scores]
  · intro m
    exact qSearch_le_beta o m b alpha beta h

/-- Witness for C9 on the one-capture world, window `(0, 10)`. -/
theorem q_search_fail_hard_witness :
    qSearch oC9 (1 + 1) 0 0 10 = 3 ∧ qSearch oC9 (1 + 1) 0 0 10 ≤ 10 := by
  have h := q_search_fail_hard oC9 1 0 0 10 (by norm_num)
  refine ⟨?_, h.2 (1 + 1)⟩
  rw [h.1]
  decide

/-- C10: for a hint that is legal in the position, `sorted_moves` emits the
hint first but also leaves it in the appended full legal-move list (the hint
was removed only from a discarded generator), so the hint occurs again among
the subsequent elements and the result has one more element than there are
legal moves. -/
theorem sorted_moves_duplicates_hint (o : Oracle) (b : Nat) (m : Nat)
    (hm : m ∈ o.legalMoves b) :
    (sortedMoves o b (some m)).head? = some m ∧
    m ∈ (sortedMoves o b (some m)).tail ∧
    (sortedMoves o b (some m)).length = (o.legalMoves b).length + 1 := by
  simp only [sortedMoves]
  rw [if_pos hm]
  refine ⟨rfl, ?_, ?_⟩
  · simpa using
      ((List.perm_insertionSort (fun a c => o.moveScore b a ≤ o.moveScore b c)
        (o.legalMoves b)).mem_iff).2 hm
  · simp [List.length_insertionSort]

/-- Witness for C10 on a two-move position with hint 5. -/
theorem sorted_moves_duplicates_hint_witness :
    (sortedMoves oC10 0 (some 5)).head? = some 5 ∧
    5 ∈ (sortedMoves oC10 0 (some 5)).tail ∧
    (sortedMoves oC10 0 (some 5)).length = 3 := by
  have h := sorted_moves_duplicates_hint oC10 0 5 (by decide)
  exact ⟨h.1, h.2.1, by rw [h.2.2]; decide⟩
